import Mathlib

/-!
Shallow embedding of the Remus image-write engine
(`macos_write_iso_to_device` and its helpers in src/macos/macos_device.c).

The model covers the write engine from the point where the image size is
known: the priming read, the main write loop with its two-buffer rotation,
sector rounding, the bounded retry loop with backoff and re-seek, progress
reporting, and cooperative cancellation polling.  External I/O behaviour
(how many bytes each fread/fwrite call transfers, whether fseek succeeds,
and the value of the cancellation flag at each poll) is an explicit
environment parameter, so every run of the C function corresponds to a run
of the model at some environment.
-/

namespace Remus

/-- `#define NUM_BUFFERS 2` in macos_device.c. -/
def NUM_BUFFERS : Nat := 2

/-- `#define DD_BUFFER_SIZE (8 * 1024 * 1024)` in macos_device.c. -/
def DD_BUFFER_SIZE : Nat := 8 * 1024 * 1024

/-- `#define WRITE_RETRIES 5` in macos_device.c. -/
def WRITE_RETRIES : Nat := 5

/-- `#define WRITE_TIMEOUT 5000` (milliseconds) in macos_device.c. -/
def WRITE_TIMEOUT : Nat := 5000

/-- `buf_size = ((DD_BUFFER_SIZE + 511) / 512) * 512` in the C function. -/
def bufSize : Nat := ((DD_BUFFER_SIZE + 511) / 512) * 512

/-- Step 2 of the loop body: `if (read_size % 512 != 0) read_size = ((read_size + 511) / 512) * 512`. -/
def alignSize (r : Nat) : Nat := if r % 512 ≠ 0 then ((r + 511) / 512) * 512 else r

/-- Rounding a byte count up to the next multiple of 512 (specification shorthand). -/
def roundUp512 (x : Nat) : Nat := ((x + 511) / 512) * 512

/-- Observable events of one run: progress lines printed by
`rufus_update_progress`, source reads, device write attempts (with the device
offset the write starts at and the requested length), flush+fsync pairs,
sleeps, and `fseek` repositionings. -/
inductive Event
  | progress (written total : Nat)
  | readSrc (requested actual : Nat)
  | writeAttempt (offset len : Nat)
  | flushSync
  | sleepMs (ms : Nat)
  | seek (offset : Nat)
  deriving DecidableEq

/-- Failure kinds reachable from the modelled portion of the C function. -/
inductive Err
  | invalidSize
  | writeExhausted
  | seekError
  deriving DecidableEq

/-- Terminal result of a run.  The C function returns `true` on the success
path and `false` otherwise, distinguishing the cases by the message printed
on the way to `out`; the model keeps them as distinct constructors. -/
inductive Outcome
  | done
  | cancelled
  | failed (e : Err)
  deriving DecidableEq

/-- External behaviour of one run: `readO j` is the byte count delivered by
the j-th fread before clipping by the request and the bytes remaining in the
source (a small value models a short read / read error); `writeO n` is the
byte count reported by the n-th fwrite before clipping by the request (a
small value models a partial write or I/O error); `cancel n` is the value of
`g_rufus_progress.cancelled` observed at the n-th `CHECK_FOR_USER_CANCEL`;
`seekO n` tells whether an `fseek` issued while recovering from attempt n
succeeds. -/
structure Env where
  readO : Nat → Nat
  writeO : Nat → Nat
  cancel : Nat → Bool
  seekO : Nat → Bool

/-- Result of the per-chunk retry loop. -/
inductive RetryResult
  | written (pos n : Nat)
  | cancelled
  | exhausted
  | seekFailed
  deriving DecidableEq

/-- The per-chunk bounded retry loop (`for (i = 1; i <= WRITE_RETRIES; i++)`
in macos_device.c): poll the cancel flag, attempt the fwrite at the current
device position, on full success flush+fsync and stop, on partial write or
error either give up (last attempt) or sleep `WRITE_TIMEOUT` ms, re-seek the
device to the chunk offset `wb`, pause a further 200 ms, and retry.
`attemptsLeft` counts the remaining iterations, so the call site passes
`WRITE_RETRIES`; `pos` is the device file position, `n` the global attempt
counter indexing the oracles. -/
def retryLoop (env : Env) (wb len : Nat) : Nat → Nat → Nat → List Event × RetryResult
  | 0, _, _ => ([], .exhausted)
  | attemptsLeft + 1, pos, n =>
    if env.cancel n then ([], .cancelled)
    else
      let written := min (env.writeO n) len
      if written = len then
        ([.writeAttempt pos len, .flushSync], .written (pos + written) (n + 1))
      else if attemptsLeft = 0 then
        ([.writeAttempt pos len], .exhausted)
      else if env.seekO n then
        let rest := retryLoop env wb len attemptsLeft wb (n + 1)
        (.writeAttempt pos len :: .sleepMs WRITE_TIMEOUT :: .seek wb :: .sleepMs 200 :: rest.1,
         rest.2)
      else
        ([.writeAttempt pos len, .sleepMs WRITE_TIMEOUT], .seekFailed)

/-- Mutable state of the main write loop: `wb` the loop counter (bytes
accounted as written), the two `read_size` slots, the two buffer indices
(`false` is buffer 0), the device file position, the source read position,
and the oracle counters for reads and write attempts. -/
structure St where
  wb : Nat
  rs0 : Nat
  rs1 : Nat
  readBuf : Bool
  procBuf : Bool
  pos : Nat
  readPos : Nat
  rIdx : Nat
  n : Nat
  deriving DecidableEq

/-- `read_size[b]`. -/
def getRs (s : St) (b : Bool) : Nat := if b then s.rs1 else s.rs0

/-- `read_size[b] = v`. -/
def setRs (s : St) (b : Bool) (v : Nat) : St :=
  if b then { s with rs1 := v } else { s with rs0 := v }

/-- Model of `fread(_, 1, req, source_image)` on a source of `total` bytes at
read position `readPos`: the C stream never delivers more than the bytes
remaining in the file, and the oracle can shorten the transfer further. -/
def freadModel (env : Env) (total readPos rIdx req : Nat) : Nat :=
  min (env.readO rIdx) (min req (total - readPos))

/-- Result of one iteration of the main loop body. -/
inductive StepRes
  | exitLoop
  | breakLoop
  | next (evs : List Event) (s' : St)
  | halt (evs : List Event) (o : Outcome)

/-- Loop body steps 2 and 3 before the device write: the sector-rounded
length of the chunk about to be written (`read_size[read_bufnum]` after the
`% 512` adjustment, which becomes `read_size[proc_bufnum]` after the buffer
rotation). -/
def chunkLen (s : St) : Nat := alignSize (getRs s s.readBuf)

/-- Loop body steps 2-3: round the freshly read size up to a sector
multiple, rotate the two buffers (`proc_bufnum = read_bufnum;
read_bufnum = (read_bufnum + 1) % NUM_BUFFERS`), and launch the next read
into the new read buffer while `wb + read_size[proc_bufnum] < target_size`
(otherwise mark end of data).  Returns the updated state and the read
events. -/
def afterRead (env : Env) (total B : Nat) (s : St) : St × List Event :=
  let c := chunkLen s
  let s1 := setRs s s.readBuf c
  let s2 := { s1 with procBuf := s1.readBuf, readBuf := !s1.readBuf }
  if s.wb + c < total then
    let req := min B (total - (s.wb + c))
    let act := freadModel env total s.readPos s.rIdx req
    ({ setRs s2 s2.readBuf act with readPos := s.readPos + act, rIdx := s.rIdx + 1 },
     [Event.readSrc req act])
  else
    (setRs s2 s2.readBuf 0, ([] : List Event))

/-- One iteration of the main `for` loop of `macos_write_iso_to_device`:
check the loop condition `read_size[proc_bufnum] != 0`, print progress,
break once `wb >= target_size`, perform the rounding / rotation / next-read
steps, then run the retry loop on the current chunk and advance `wb` by the
(rounded) chunk length `read_size[proc_bufnum]` on success. -/
def loopStep (env : Env) (total B : Nat) (s : St) : StepRes :=
  if getRs s s.procBuf = 0 then .exitLoop
  else if total ≤ s.wb then .breakLoop
  else
    let c := chunkLen s
    let a := afterRead env total B s
    let r := retryLoop env a.1.wb c WRITE_RETRIES a.1.pos a.1.n
    match r.2 with
    | .written pos' n' =>
      .next (Event.progress s.wb total :: a.2 ++ r.1)
        { a.1 with wb := a.1.wb + c, pos := pos', n := n' }
    | .cancelled => .halt (Event.progress s.wb total :: a.2 ++ r.1) .cancelled
    | .exhausted => .halt (Event.progress s.wb total :: a.2 ++ r.1) (.failed .writeExhausted)
    | .seekFailed => .halt (Event.progress s.wb total :: a.2 ++ r.1) (.failed .seekError)

/-- The main write loop, driven by fuel (the C loop always terminates, since
each iteration either ends the run, advances `wb` by a positive sector
multiple, or writes a zero-length chunk after which the loop condition
fails; fuel makes that bound explicit).  Returns the event trace, the
terminal outcome, and the final value of `wb`. -/
def mainLoop (env : Env) (total B : Nat) : Nat → St → Option (List Event × Outcome × Nat)
  | 0, _ => none
  | fuel + 1, s =>
    match loopStep env total B s with
    | .exitLoop => some ([.flushSync], .done, s.wb)
    | .breakLoop => some ([.progress s.wb total, .flushSync], .done, s.wb)
    | .next evs s' =>
      match mainLoop env total B fuel s' with
      | none => none
      | some (tr, o, w) => some (evs ++ tr, o, w)
    | .halt evs o => some (evs, o, s.wb)

/-- Initial loop state built by the priming code before the loop: the first
fread into buffer 0 of `MIN(buf_size, target_size)` bytes, and
`read_size[proc_bufnum] = 1` to avoid early loop exit. -/
def initSt (env : Env) (total B : Nat) : St :=
  let act := freadModel env total 0 0 (min B total)
  { wb := 0, rs0 := act, rs1 := 1, readBuf := false, procBuf := true,
    pos := 0, readPos := act, rIdx := 1, n := 0 }

/-- The modelled portion of `macos_write_iso_to_device`, from the image-size
check onward: reject a zero-size image, prime the pipeline with the first
read, emit the initial `rufus_update_progress(0, target_size)`, and run the
main loop. -/
def macosWrite (env : Env) (total B fuel : Nat) : Option (List Event × Outcome × Nat) :=
  if total = 0 then some ([], .failed .invalidSize, 0)
  else
    match mainLoop env total B fuel (initSt env total B) with
    | none => none
    | some (tr, o, w) =>
      some (.readSrc (min B total) (freadModel env total 0 0 (min B total)) ::
            .progress 0 total :: tr, o, w)

/-- Environment in which every read and write transfers everything requested,
no seek fails, and the cancel flag stays false. -/
def idealEnv (B : Nat) : Env :=
  { readO := fun _ => B, writeO := fun _ => B, cancel := fun _ => false, seekO := fun _ => true }

/-- Number of device write attempts in a trace. -/
def countWrites (tr : List Event) : Nat :=
  tr.countP fun e => match e with | .writeAttempt _ _ => true | _ => false

/-- Offsets of the device write attempts, in trace order. -/
def writeOffsets (tr : List Event) : List Nat :=
  tr.filterMap fun e => match e with | .writeAttempt o _ => some o | _ => none

/-- Written-bytes arguments of the progress emissions, in trace order. -/
def progressWrittens (tr : List Event) : List Nat :=
  tr.filterMap fun e => match e with | .progress a _ => some a | _ => none

/-- Events of a run (empty when the run is out of fuel). -/
def traceEvents (r : Option (List Event × Outcome × Nat)) : List Event :=
  match r with
  | some (tr, _, _) => tr
  | none => []

/-- Outcome, final `wb`, and number of write attempts of a run. -/
def runSummary (r : Option (List Event × Outcome × Nat)) : Option (Outcome × Nat × Nat) :=
  r.map fun x => (x.2.1, x.2.2, countWrites x.1)

/-- The percentage computed by `rufus_update_progress`:
`total > 0 ? (double)written / total * 100.0 : 0.0`, modelled exactly over ℚ. -/
def percentOf (written total : Nat) : ℚ :=
  if 0 < total then (written : ℚ) / (total : ℚ) * 100 else 0

/-- The events of one failed-and-retried attempt: the attempt itself, the
`WRITE_TIMEOUT` backoff sleep, the re-seek to the chunk offset, and the
200 ms settle pause. -/
def retryFailEvs (wb len : Nat) : List Event :=
  [.writeAttempt wb len, .sleepMs WRITE_TIMEOUT, .seek wb, .sleepMs 200]

/-- `k` repetitions of an event block. -/
def repEvs : Nat → List Event → List Event
  | 0, _ => []
  | k + 1, evs => evs ++ repEvs k evs

/-- Invariant of the main loop for a fault-free run: the cursor is a sector
multiple strictly inside the image, the device position matches it, the read
buffer holds exactly the next `min B (total - wb)` source bytes, the source
position is consistent, and the loop condition holds. -/
def IdealInv (total B : Nat) (s : St) : Prop :=
  s.wb < total ∧ s.wb % 512 = 0 ∧ s.pos = s.wb ∧
  getRs s s.readBuf = min B (total - s.wb) ∧
  s.readPos = s.wb + getRs s s.readBuf ∧
  getRs s s.procBuf ≠ 0

/-- Environment in which the cancel flag is already up at every poll. -/
def cancelAlwaysEnv (B : Nat) : Env :=
  { readO := fun _ => B, writeO := fun _ => B, cancel := fun _ => true, seekO := fun _ => true }

/-- Environment in which every device write fails outright (fwrite reports
0 bytes) while reads, seeks and the cancel flag behave normally. -/
def failWriteEnv (B : Nat) : Env :=
  { readO := fun _ => B, writeO := fun _ => 0, cancel := fun _ => false, seekO := fun _ => true }

/-- Environment in which every source read fails (fread reports 0 bytes)
while writes, seeks and the cancel flag behave normally. -/
def failReadEnv (B : Nat) : Env :=
  { readO := fun _ => 0, writeO := fun _ => B, cancel := fun _ => false, seekO := fun _ => true }

/-- Environment whose first `k` write attempts fail and later ones succeed. -/
def flakyWriteEnv (B k : Nat) : Env :=
  { readO := fun _ => B, writeO := fun n => if n < k then 0 else B,
    cancel := fun _ => false, seekO := fun _ => true }

/-! Arithmetic facts about the sector rounding. -/

theorem alignSize_eq (r : Nat) : alignSize r = roundUp512 r := by
  unfold alignSize roundUp512
  split <;> omega

theorem alignSize_mod (r : Nat) : alignSize r % 512 = 0 := by
  unfold alignSize
  split <;> omega

theorem alignSize_pos (r : Nat) (h : 0 < r) : 0 < alignSize r := by
  unfold alignSize
  split <;> omega

theorem alignSize_le (r B : Nat) (hr : r ≤ B) (hB : B % 512 = 0) : alignSize r ≤ B := by
  unfold alignSize
  split <;> omega

theorem alignSize_ge (r : Nat) : r ≤ alignSize r := by
  unfold alignSize
  split <;> omega

theorem roundUp512_of_mod (x : Nat) (h : x % 512 = 0) : roundUp512 x = x := by
  unfold roundUp512
  omega

theorem roundUp512_add_left (w y : Nat) (h : w % 512 = 0) :
    roundUp512 (w + y) = w + roundUp512 y := by
  unfold roundUp512
  omega

/-! Facts about the `read_size` slots. -/

@[simp] theorem getRs_setRs_same (s : St) (b : Bool) (v : Nat) : getRs (setRs s b v) b = v := by
  cases b <;> simp [getRs, setRs]

theorem getRs_setRs_other (s : St) (b b' : Bool) (v : Nat) (h : b ≠ b') :
    getRs (setRs s b' v) b = getRs s b := by
  cases b <;> cases b' <;> simp_all [getRs, setRs]

@[simp] theorem setRs_wb (s : St) (b : Bool) (v : Nat) : (setRs s b v).wb = s.wb := by
  cases b <;> rfl

@[simp] theorem setRs_pos (s : St) (b : Bool) (v : Nat) : (setRs s b v).pos = s.pos := by
  cases b <;> rfl

@[simp] theorem setRs_readPos (s : St) (b : Bool) (v : Nat) :
    (setRs s b v).readPos = s.readPos := by
  cases b <;> rfl

@[simp] theorem setRs_rIdx (s : St) (b : Bool) (v : Nat) : (setRs s b v).rIdx = s.rIdx := by
  cases b <;> rfl

@[simp] theorem setRs_n (s : St) (b : Bool) (v : Nat) : (setRs s b v).n = s.n := by
  cases b <;> rfl

@[simp] theorem setRs_readBuf (s : St) (b : Bool) (v : Nat) :
    (setRs s b v).readBuf = s.readBuf := by
  cases b <;> rfl

@[simp] theorem setRs_procBuf (s : St) (b : Bool) (v : Nat) :
    (setRs s b v).procBuf = s.procBuf := by
  cases b <;> rfl

/-! Facts about trace projections. -/

theorem mem_writeOffsets (tr : List Event) (x : Nat) :
    x ∈ writeOffsets tr ↔ ∃ l, Event.writeAttempt x l ∈ tr := by
  simp only [writeOffsets, List.mem_filterMap]
  constructor
  · rintro ⟨e, he, hfe⟩
    cases e <;> simp_all
    exact ⟨_, he⟩
  · rintro ⟨l, hl⟩
    exact ⟨.writeAttempt x l, hl, rfl⟩

theorem mem_progressWrittens (tr : List Event) (x : Nat) :
    x ∈ progressWrittens tr ↔ ∃ b, Event.progress x b ∈ tr := by
  simp only [progressWrittens, List.mem_filterMap]
  constructor
  · rintro ⟨e, he, hfe⟩
    cases e <;> simp_all
    exact ⟨_, he⟩
  · rintro ⟨b, hb⟩
    exact ⟨.progress x b, hb, rfl⟩

@[simp] theorem writeOffsets_nil : writeOffsets [] = [] := rfl

@[simp] theorem writeOffsets_append (l1 l2 : List Event) :
    writeOffsets (l1 ++ l2) = writeOffsets l1 ++ writeOffsets l2 := by
  simp [writeOffsets]

@[simp] theorem writeOffsets_cons_progress (a b : Nat) (l : List Event) :
    writeOffsets (.progress a b :: l) = writeOffsets l := by
  simp [writeOffsets]

@[simp] theorem writeOffsets_cons_readSrc (a b : Nat) (l : List Event) :
    writeOffsets (.readSrc a b :: l) = writeOffsets l := by
  simp [writeOffsets]

@[simp] theorem writeOffsets_cons_write (o len : Nat) (l : List Event) :
    writeOffsets (.writeAttempt o len :: l) = o :: writeOffsets l := by
  simp [writeOffsets]

@[simp] theorem writeOffsets_cons_flushSync (l : List Event) :
    writeOffsets (.flushSync :: l) = writeOffsets l := by
  simp [writeOffsets]

@[simp] theorem writeOffsets_cons_sleepMs (m : Nat) (l : List Event) :
    writeOffsets (.sleepMs m :: l) = writeOffsets l := by
  simp [writeOffsets]

@[simp] theorem writeOffsets_cons_seek (o : Nat) (l : List Event) :
    writeOffsets (.seek o :: l) = writeOffsets l := by
  simp [writeOffsets]

@[simp] theorem progressWrittens_nil : progressWrittens [] = [] := rfl

@[simp] theorem progressWrittens_append (l1 l2 : List Event) :
    progressWrittens (l1 ++ l2) = progressWrittens l1 ++ progressWrittens l2 := by
  simp [progressWrittens]

@[simp] theorem progressWrittens_cons_progress (a b : Nat) (l : List Event) :
    progressWrittens (.progress a b :: l) = a :: progressWrittens l := by
  simp [progressWrittens]

@[simp] theorem progressWrittens_cons_readSrc (a b : Nat) (l : List Event) :
    progressWrittens (.readSrc a b :: l) = progressWrittens l := by
  simp [progressWrittens]

@[simp] theorem progressWrittens_cons_write (o len : Nat) (l : List Event) :
    progressWrittens (.writeAttempt o len :: l) = progressWrittens l := by
  simp [progressWrittens]

@[simp] theorem progressWrittens_cons_flushSync (l : List Event) :
    progressWrittens (.flushSync :: l) = progressWrittens l := by
  simp [progressWrittens]

@[simp] theorem progressWrittens_cons_sleepMs (m : Nat) (l : List Event) :
    progressWrittens (.sleepMs m :: l) = progressWrittens l := by
  simp [progressWrittens]

@[simp] theorem progressWrittens_cons_seek (o : Nat) (l : List Event) :
    progressWrittens (.seek o :: l) = progressWrittens l := by
  simp [progressWrittens]

theorem chain'_le_of_all_eq (l : List Nat) (c : Nat) (h : ∀ x ∈ l, x = c) :
    l.Chain' (· ≤ ·) := by
  induction l with
  | nil => simp
  | cons a t ih =>
    cases t with
    | nil => simp
    | cons b t' =>
      refine List.Chain'.cons ?_ (ih ?_)
      · have ha := h a (by simp)
        have hb := h b (by simp)
        omega
      · intro x hx
        exact h x (by simp [hx])

theorem chain'_le_append (l1 l2 : List Nat) (m : Nat)
    (h1 : ∀ x ∈ l1, x ≤ m) (h2 : ∀ y ∈ l2, m ≤ y)
    (c1 : l1.Chain' (· ≤ ·)) (c2 : l2.Chain' (· ≤ ·)) :
    (l1 ++ l2).Chain' (· ≤ ·) := by
  rw [List.chain'_append]
  refine ⟨c1, c2, ?_⟩
  intro x hx y hy
  have hx' : x ∈ l1 := List.mem_of_mem_getLast? hx
  have hy' : y ∈ l2 := List.mem_of_mem_head? hy
  exact le_trans (h1 x hx') (h2 y hy')

/-! Facts about the retry loop, entered with the device position equal to the
chunk offset `wb` (the main loop establishes this; every re-seek restores
it). -/

theorem retryLoop_succ (env : Env) (wb len k pos n : Nat) :
    retryLoop env wb len (k + 1) pos n =
      if env.cancel n then ([], .cancelled)
      else if min (env.writeO n) len = len then
        ([.writeAttempt pos len, .flushSync], .written (pos + min (env.writeO n) len) (n + 1))
      else if k = 0 then ([.writeAttempt pos len], .exhausted)
      else if env.seekO n then
        (.writeAttempt pos len :: .sleepMs WRITE_TIMEOUT :: .seek wb :: .sleepMs 200 ::
           (retryLoop env wb len k wb (n + 1)).1,
         (retryLoop env wb len k wb (n + 1)).2)
      else ([.writeAttempt pos len, .sleepMs WRITE_TIMEOUT], .seekFailed) := by
  rfl

theorem retryLoop_write_mem (env : Env) (wb len : Nat) :
    ∀ (k : Nat), ∀ (n : Nat), ∀ {o l : Nat},
      Event.writeAttempt o l ∈ (retryLoop env wb len k wb n).1 → o = wb ∧ l = len := by
  intro k
  induction k with
  | zero => intro n o l h; simp [retryLoop] at h
  | succ k ih =>
    intro n o l h
    rw [retryLoop_succ] at h
    split_ifs at h with hc hw ha hs
    · simp at h
    · simp only [List.mem_cons, List.not_mem_nil, or_false] at h
      rcases h with h | h
      · simpa using h
      · simp at h
    · simp only [List.mem_cons, List.not_mem_nil, or_false] at h
      simpa using h
    · simp only [List.mem_cons] at h
      rcases h with h | h | h | h | h
      · simpa using h
      · simp at h
      · simp at h
      · simp at h
      · exact ih (n + 1) h
    · simp only [List.mem_cons, List.not_mem_nil, or_false] at h
      rcases h with h | h
      · simpa using h
      · simp at h

theorem retryLoop_seek_mem (env : Env) (wb len : Nat) :
    ∀ (k : Nat), ∀ (pos n : Nat), ∀ {o : Nat},
      Event.seek o ∈ (retryLoop env wb len k pos n).1 → o = wb := by
  intro k
  induction k with
  | zero => intro pos n o h; simp [retryLoop] at h
  | succ k ih =>
    intro pos n o h
    rw [retryLoop_succ] at h
    split_ifs at h with hc hw ha hs
    · simp at h
    · simp at h
    · simp at h
    · simp only [List.mem_cons] at h
      rcases h with h | h | h | h | h
      · simp at h
      · simp at h
      · simpa using h
      · simp at h
      · exact ih wb (n + 1) h
    · simp at h

theorem retryLoop_progressWrittens (env : Env) (wb len : Nat) :
    ∀ (k : Nat), ∀ (pos n : Nat),
      progressWrittens (retryLoop env wb len k pos n).1 = [] := by
  intro k
  induction k with
  | zero => intro pos n; simp [retryLoop]
  | succ k ih =>
    intro pos n
    rw [retryLoop_succ]
    split_ifs with hc hw ha hs
    · simp
    · simp
    · simp
    · simp [ih wb (n + 1)]
    · simp

theorem retryLoop_written_pos (env : Env) (wb len : Nat) :
    ∀ (k : Nat), ∀ (n : Nat), ∀ {pos' n' : Nat},
      (retryLoop env wb len k wb n).2 = .written pos' n' → pos' = wb + len := by
  intro k
  induction k with
  | zero => intro n pos' n' h; simp [retryLoop] at h
  | succ k ih =>
    intro n pos' n' h
    rw [retryLoop_succ] at h
    split_ifs at h with hc hw ha hs
    · rw [hw] at h
      simp at h
      omega
    · exact ih (n + 1) h

theorem retryLoop_not_cancelled (env : Env) (wb len : Nat)
    (hnc : ∀ m, env.cancel m = false) :
    ∀ (k : Nat), ∀ (pos n : Nat), (retryLoop env wb len k pos n).2 ≠ .cancelled := by
  intro k
  induction k with
  | zero => intro pos n h; simp [retryLoop] at h
  | succ k ih =>
    intro pos n h
    rw [retryLoop_succ] at h
    split_ifs at h with hc hw ha hs
    · rw [hnc n] at hc
      exact absurd hc (by simp)
    · exact ih wb (n + 1) h

theorem retryLoop_exhausted_offsets (env : Env) (wb len : Nat) :
    ∀ (k : Nat), ∀ (n : Nat), (retryLoop env wb len k wb n).2 = .exhausted →
      writeOffsets (retryLoop env wb len k wb n).1 = List.replicate k wb := by
  intro k
  induction k with
  | zero => intro n _; simp [retryLoop]
  | succ k ih =>
    intro n h
    rw [retryLoop_succ] at h ⊢
    split_ifs at h ⊢ with hc hw ha hs
    · subst ha
      simp [List.replicate]
    · simp only [writeOffsets_cons_write, writeOffsets_cons_sleepMs, writeOffsets_cons_seek]
      rw [ih (n + 1) h, List.replicate_succ]

/-- Cancellation observed at the start of an attempt ends the retry loop at
once, with no events and no device write. -/
theorem retryLoop_cancel_true (env : Env) (wb len k pos n : Nat)
    (h : env.cancel n = true) :
    retryLoop env wb len (k + 1) pos n = ([], .cancelled) := by
  simp [retryLoop, h]

/-- Exact shape of the retry loop when the first `k` attempts fail (with the
cancel flag down and every recovery seek succeeding) and attempt `k`
succeeds: each failed attempt is followed by the 5000 ms backoff, the
re-seek to the chunk offset, and the 200 ms settle pause, while the
succeeding attempt is followed only by the flush+fsync — never by a
pause. -/
theorem retryLoop_char (env : Env) (wb len : Nat) :
    ∀ (k : Nat), ∀ (a n : Nat), k < a →
      (∀ j, j < k → min (env.writeO (n + j)) len < len) →
      (∀ j, j ≤ k → env.cancel (n + j) = false) →
      (∀ j, j < k → env.seekO (n + j) = true) →
      min (env.writeO (n + k)) len = len →
      retryLoop env wb len a wb n =
        (repEvs k (retryFailEvs wb len) ++ [.writeAttempt wb len, .flushSync],
         .written (wb + len) (n + k + 1)) := by
  intro k
  induction k with
  | zero =>
    intro a n ha hfail hcanc hseek hsucc
    obtain ⟨a', rfl⟩ : ∃ a', a = a' + 1 := ⟨a - 1, by omega⟩
    have hc : env.cancel n = false := by simpa using hcanc 0 (by omega)
    have hw : min (env.writeO n) len = len := by simpa using hsucc
    rw [retryLoop_succ, hc]
    simp [hw, repEvs]
  | succ k ih =>
    intro a n ha hfail hcanc hseek hsucc
    obtain ⟨a', rfl⟩ : ∃ a', a = a' + 1 := ⟨a - 1, by omega⟩
    have hc : env.cancel n = false := by simpa using hcanc 0 (by omega)
    have hw : min (env.writeO n) len < len := by simpa using hfail 0 (by omega)
    have hs : env.seekO n = true := by simpa using hseek 0 (by omega)
    have ha' : ¬a' = 0 := by omega
    have hrec := ih a' (n + 1) (by omega)
      (fun j hj => by
        have h := hfail (j + 1) (by omega)
        rwa [show n + (j + 1) = n + 1 + j by omega] at h)
      (fun j hj => by
        have h := hcanc (j + 1) (by omega)
        rwa [show n + (j + 1) = n + 1 + j by omega] at h)
      (fun j hj => by
        have h := hseek (j + 1) (by omega)
        rwa [show n + (j + 1) = n + 1 + j by omega] at h)
      (by
        have h := hsucc
        rwa [show n + (k + 1) = n + 1 + k by omega] at h)
    rw [retryLoop_succ, hc]
    simp only [Bool.false_eq_true, if_false]
    rw [if_neg (by omega), if_neg ha', if_pos hs, hrec]
    have hn : n + 1 + k + 1 = n + (k + 1) + 1 := by omega
    rw [hn]
    simp [repEvs, retryFailEvs]

/-! Facts about the rounding / rotation / next-read phase. -/

theorem afterRead_wb (env : Env) (total B : Nat) (s : St) :
    (afterRead env total B s).1.wb = s.wb := by
  simp only [afterRead]
  split <;> simp

theorem afterRead_pos (env : Env) (total B : Nat) (s : St) :
    (afterRead env total B s).1.pos = s.pos := by
  simp only [afterRead]
  split <;> simp

theorem afterRead_n (env : Env) (total B : Nat) (s : St) :
    (afterRead env total B s).1.n = s.n := by
  simp only [afterRead]
  split <;> simp

theorem afterRead_procRs (env : Env) (total B : Nat) (s : St) :
    getRs (afterRead env total B s).1 (afterRead env total B s).1.procBuf = chunkLen s := by
  cases hb : s.readBuf <;>
    simp only [afterRead, chunkLen, hb] <;> split <;> simp [getRs, setRs, hb]

theorem afterRead_evs (env : Env) (total B : Nat) (s : St) :
    (afterRead env total B s).2 = [] ∨
      ∃ a b, (afterRead env total B s).2 = [Event.readSrc a b] := by
  simp only [afterRead]
  split
  · right
    exact ⟨_, _, rfl⟩
  · left
    rfl

/-! Case equations for one loop iteration. -/

theorem loopStep_exit (env : Env) (total B : Nat) (s : St) (h : getRs s s.procBuf = 0) :
    loopStep env total B s = .exitLoop := by
  simp [loopStep, h]

theorem loopStep_break (env : Env) (total B : Nat) (s : St)
    (h0 : ¬getRs s s.procBuf = 0) (h1 : total ≤ s.wb) :
    loopStep env total B s = .breakLoop := by
  simp [loopStep, h0, h1]

theorem loopStep_next (env : Env) (total B : Nat) (s : St) (pos' n' : Nat)
    (h0 : ¬getRs s s.procBuf = 0) (h1 : s.wb < total)
    (hr : (retryLoop env (afterRead env total B s).1.wb (chunkLen s) WRITE_RETRIES
            (afterRead env total B s).1.pos (afterRead env total B s).1.n).2 =
          .written pos' n') :
    loopStep env total B s =
      .next (Event.progress s.wb total :: (afterRead env total B s).2 ++
              (retryLoop env (afterRead env total B s).1.wb (chunkLen s) WRITE_RETRIES
                (afterRead env total B s).1.pos (afterRead env total B s).1.n).1)
        { (afterRead env total B s).1 with
            wb := (afterRead env total B s).1.wb + chunkLen s, pos := pos', n := n' } := by
  simp only [loopStep, if_neg h0, if_neg (by omega : ¬total ≤ s.wb)]
  rw [hr]

theorem loopStep_halt (env : Env) (total B : Nat) (s : St)
    (h0 : ¬getRs s s.procBuf = 0) (h1 : s.wb < total) (res : RetryResult) (o : Outcome)
    (hr : (retryLoop env (afterRead env total B s).1.wb (chunkLen s) WRITE_RETRIES
            (afterRead env total B s).1.pos (afterRead env total B s).1.n).2 = res)
    (hro : (res = .cancelled ∧ o = .cancelled) ∨
           (res = .exhausted ∧ o = .failed .writeExhausted) ∨
           (res = .seekFailed ∧ o = .failed .seekError)) :
    loopStep env total B s =
      .halt (Event.progress s.wb total :: (afterRead env total B s).2 ++
              (retryLoop env (afterRead env total B s).1.wb (chunkLen s) WRITE_RETRIES
                (afterRead env total B s).1.pos (afterRead env total B s).1.n).1) o := by
  simp only [loopStep, if_neg h0, if_neg (by omega : ¬total ≤ s.wb)]
  rcases hro with ⟨hres, rfl⟩ | ⟨hres, rfl⟩ | ⟨hres, rfl⟩ <;> rw [hr, hres]

/-! Case equations for the fuelled main loop. -/

theorem mainLoop_zero (env : Env) (total B : Nat) (s : St) :
    mainLoop env total B 0 s = none := rfl

theorem mainLoop_exit (env : Env) (total B fuel : Nat) (s : St)
    (h : getRs s s.procBuf = 0) :
    mainLoop env total B (fuel + 1) s = some ([.flushSync], .done, s.wb) := by
  simp [mainLoop, loopStep_exit env total B s h]

theorem mainLoop_break (env : Env) (total B fuel : Nat) (s : St)
    (h0 : ¬getRs s s.procBuf = 0) (h1 : total ≤ s.wb) :
    mainLoop env total B (fuel + 1) s =
      some ([.progress s.wb total, .flushSync], .done, s.wb) := by
  simp [mainLoop, loopStep_break env total B s h0 h1]

theorem mainLoop_next (env : Env) (total B fuel : Nat) (s s' : St) (evs : List Event)
    (h : loopStep env total B s = .next evs s') :
    mainLoop env total B (fuel + 1) s =
      match mainLoop env total B fuel s' with
      | none => none
      | some (tr, o, w) => some (evs ++ tr, o, w) := by
  simp [mainLoop, h]

theorem mainLoop_halt (env : Env) (total B fuel : Nat) (s : St) (evs : List Event)
    (o : Outcome) (h : loopStep env total B s = .halt evs o) :
    mainLoop env total B (fuel + 1) s = some (evs, o, s.wb) := by
  simp [mainLoop, h]

theorem getRs_update (x : St) (b : Bool) (a p m : Nat) :
    getRs { x with wb := a, pos := p, n := m } b = getRs x b := by
  cases b <;> rfl

theorem procBuf_update (x : St) (a p m : Nat) :
    ({ x with wb := a, pos := p, n := m } : St).procBuf = x.procBuf := rfl

/-- `loopStep_next` restated with the retry-loop arguments normalised using
the incoming invariant `s.pos = s.wb` (the device position equals the
write cursor at the top of every iteration). -/
theorem loopStep_next' (env : Env) (total B : Nat) (s : St) (pos' n' : Nat)
    (hpos : s.pos = s.wb)
    (h0 : ¬getRs s s.procBuf = 0) (h1 : s.wb < total)
    (hr : (retryLoop env s.wb (chunkLen s) WRITE_RETRIES s.wb s.n).2 = .written pos' n') :
    loopStep env total B s =
      .next (Event.progress s.wb total :: (afterRead env total B s).2 ++
              (retryLoop env s.wb (chunkLen s) WRITE_RETRIES s.wb s.n).1)
        { (afterRead env total B s).1 with
            wb := s.wb + chunkLen s, pos := pos', n := n' } := by
  have e1 := afterRead_wb env total B s
  have e2 := afterRead_pos env total B s
  have e3 := afterRead_n env total B s
  rw [loopStep_next env total B s pos' n' h0 h1 (by rw [e1, e2, e3, hpos]; exact hr)]
  rw [e1, e2, e3, hpos]

/-- `loopStep_halt` restated the same way. -/
theorem loopStep_halt' (env : Env) (total B : Nat) (s : St)
    (hpos : s.pos = s.wb)
    (h0 : ¬getRs s s.procBuf = 0) (h1 : s.wb < total) (res : RetryResult) (o : Outcome)
    (hr : (retryLoop env s.wb (chunkLen s) WRITE_RETRIES s.wb s.n).2 = res)
    (hro : (res = .cancelled ∧ o = .cancelled) ∨
           (res = .exhausted ∧ o = .failed .writeExhausted) ∨
           (res = .seekFailed ∧ o = .failed .seekError)) :
    loopStep env total B s =
      .halt (Event.progress s.wb total :: (afterRead env total B s).2 ++
              (retryLoop env s.wb (chunkLen s) WRITE_RETRIES s.wb s.n).1) o := by
  have e1 := afterRead_wb env total B s
  have e2 := afterRead_pos env total B s
  have e3 := afterRead_n env total B s
  rw [loopStep_halt env total B s h0 h1 res o (by rw [e1, e2, e3, hpos]; exact hr) hro]
  rw [e1, e2, e3, hpos]

/-- Run invariant of the main loop, for any environment: the final `wb`
never falls below the starting one; every device write attempt lies between
the starting cursor and the final cursor and has a sector-multiple length;
write offsets and progress emissions are non-decreasing along the trace;
every progress emission carries the image size as its total; and a run that
ends write-exhausted made exactly `WRITE_RETRIES` attempts at its final
cursor position. -/
theorem mainLoop_spec (env : Env) (total B : Nat) :
    ∀ (fuel : Nat), ∀ (s : St), ∀ (tr : List Event) (o : Outcome) (w : Nat),
      s.pos = s.wb →
      mainLoop env total B fuel s = some (tr, o, w) →
      s.wb ≤ w ∧
      (∀ off l, Event.writeAttempt off l ∈ tr → s.wb ≤ off ∧ off ≤ w ∧ l % 512 = 0) ∧
      (writeOffsets tr).Chain' (· ≤ ·) ∧
      (∀ a b, Event.progress a b ∈ tr → b = total ∧ s.wb ≤ a) ∧
      (progressWrittens tr).Chain' (· ≤ ·) ∧
      (o = .failed .writeExhausted → (writeOffsets tr).count w = WRITE_RETRIES) := by
  intro fuel
  induction fuel with
  | zero =>
    intro s tr o w hpos h
    rw [mainLoop_zero] at h
    exact absurd h (by simp)
  | succ fuel ih =>
    intro s tr o w hpos h
    by_cases h0 : getRs s s.procBuf = 0
    · rw [mainLoop_exit env total B fuel s h0] at h
      simp only [Option.some.injEq, Prod.mk.injEq] at h
      obtain ⟨htr, ho, hw⟩ := h
      subst htr; subst ho; subst hw
      refine ⟨Nat.le_refl _, ?_, ?_, ?_, ?_, ?_⟩
      · intro off l hm
        simp at hm
      · simp
      · intro a b hm
        simp at hm
      · simp
      · intro ho'
        simp at ho'
    · by_cases h1 : total ≤ s.wb
      · rw [mainLoop_break env total B fuel s h0 h1] at h
        simp only [Option.some.injEq, Prod.mk.injEq] at h
        obtain ⟨htr, ho, hw⟩ := h
        subst htr; subst ho; subst hw
        refine ⟨Nat.le_refl _, ?_, ?_, ?_, ?_, ?_⟩
        · intro off l hm
          simp at hm
        · simp
        · intro a b hm
          simp at hm
          exact ⟨hm.2, Nat.le_of_eq hm.1.symm⟩
        · simp
        · intro ho'
          simp at ho'
      · -- the iteration reaches the retry loop
        have h1' : s.wb < total := by omega
        have hWmemAll : ∀ {o l : Nat},
            Event.writeAttempt o l ∈
              (retryLoop env s.wb (chunkLen s) WRITE_RETRIES s.wb s.n).1 →
              o = s.wb ∧ l = chunkLen s :=
          fun {o l} hm => retryLoop_write_mem env s.wb (chunkLen s) WRITE_RETRIES s.n hm
        have hPnil := retryLoop_progressWrittens env s.wb (chunkLen s) WRITE_RETRIES s.wb s.n
        have hmodc : chunkLen s % 512 = 0 := by
          unfold chunkLen
          exact alignSize_mod _
        have hReadW : writeOffsets (afterRead env total B s).2 = [] := by
          rcases afterRead_evs env total B s with he | ⟨ra, rb, he⟩ <;> simp [he]
        have hReadP : progressWrittens (afterRead env total B s).2 = [] := by
          rcases afterRead_evs env total B s with he | ⟨ra, rb, he⟩ <;> simp [he]
        have hReadMemW : ∀ off l, Event.writeAttempt off l ∉ (afterRead env total B s).2 := by
          intro off l
          rcases afterRead_evs env total B s with he | ⟨ra, rb, he⟩ <;> simp [he]
        have hReadMemP : ∀ a b, Event.progress a b ∉ (afterRead env total B s).2 := by
          intro a b
          rcases afterRead_evs env total B s with he | ⟨ra, rb, he⟩ <;> simp [he]
        have hR1all : ∀ x ∈ writeOffsets
            (retryLoop env s.wb (chunkLen s) WRITE_RETRIES s.wb s.n).1, x = s.wb := by
          intro x hx
          obtain ⟨l, hl⟩ := (mem_writeOffsets _ _).mp hx
          exact (hWmemAll hl).1
        cases hr : (retryLoop env s.wb (chunkLen s) WRITE_RETRIES s.wb s.n).2 with
        | written pos' n' =>
          rw [mainLoop_next env total B fuel s _ _
            (loopStep_next' env total B s pos' n' hpos h0 h1' hr)] at h
          cases hrec : mainLoop env total B fuel
              { (afterRead env total B s).1 with
                  wb := s.wb + chunkLen s, pos := pos', n := n' } with
          | none =>
            rw [hrec] at h
            simp at h
          | some x =>
            obtain ⟨tr', o', w'⟩ := x
            rw [hrec] at h
            simp only [Option.some.injEq, Prod.mk.injEq] at h
            obtain ⟨htr, ho, hw⟩ := h
            subst htr; subst ho; subst hw
            have hpos'' : pos' = s.wb + chunkLen s :=
              retryLoop_written_pos env s.wb (chunkLen s) WRITE_RETRIES s.n hr
            have IH := ih _ tr' o' w' (by simp [hpos'']) hrec
            obtain ⟨IH1, IH2, IH3, IH4, IH5, IH6⟩ := IH
            have hle : s.wb + chunkLen s ≤ w' := by simpa using IH1
            have hwle : ∀ off l, Event.writeAttempt off l ∈ tr' →
                s.wb + chunkLen s ≤ off ∧ off ≤ w' ∧ l % 512 = 0 := by
              intro off l hm
              have h' := IH2 off l hm
              simpa using h'
            have hple : ∀ a b, Event.progress a b ∈ tr' →
                b = total ∧ s.wb + chunkLen s ≤ a := by
              intro a b hm
              have h' := IH4 a b hm
              simpa using h'
            refine ⟨by omega, ?_, ?_, ?_, ?_, ?_⟩
            · intro off l hm
              simp only [List.cons_append, List.mem_cons, List.mem_append] at hm
              rcases hm with hm | (hm | hm) | hm
              · exact absurd hm (by simp)
              · exact absurd hm (hReadMemW off l)
              · obtain ⟨ho1, hl1⟩ := hWmemAll hm
                refine ⟨Nat.le_of_eq ho1.symm, by omega, ?_⟩
                rw [hl1]
                exact hmodc
              · obtain ⟨x1, x2, x3⟩ := hwle off l hm
                exact ⟨by omega, x2, x3⟩
            · simp only [List.cons_append, writeOffsets_cons_progress, writeOffsets_append,
                hReadW, List.nil_append]
              refine chain'_le_append _ _ (s.wb + chunkLen s) ?_ ?_ ?_ IH3
              · intro x hx
                have := hR1all x hx
                omega
              · intro y hy
                obtain ⟨l, hl⟩ := (mem_writeOffsets _ _).mp hy
                exact (hwle y l hl).1
              · exact chain'_le_of_all_eq _ s.wb hR1all
            · intro a b hm
              simp only [List.cons_append, List.mem_cons, List.mem_append] at hm
              rcases hm with hm | (hm | hm) | hm
              · simp only [Event.progress.injEq] at hm
                exact ⟨hm.2, Nat.le_of_eq hm.1.symm⟩
              · exact absurd hm (hReadMemP a b)
              · have : a ∈ progressWrittens
                    (retryLoop env s.wb (chunkLen s) WRITE_RETRIES s.wb s.n).1 :=
                  (mem_progressWrittens _ _).mpr ⟨b, hm⟩
                rw [hPnil] at this
                simp at this
              · obtain ⟨x1, x2⟩ := hple a b hm
                exact ⟨x1, by omega⟩
            · simp only [List.cons_append, progressWrittens_cons_progress,
                progressWrittens_append, hReadP, hPnil, List.nil_append]
              rw [List.chain'_cons']
              refine ⟨?_, IH5⟩
              intro y hy
              have hy' : y ∈ progressWrittens tr' := List.mem_of_mem_head? hy
              obtain ⟨b, hb⟩ := (mem_progressWrittens _ _).mp hy'
              have := (hple y b hb).2
              omega
            · intro ho
              have hcpos : chunkLen s ≠ 0 := by
                intro hcz
                have hpr := afterRead_procRs env total B s
                have hrs0 : getRs
                    { (afterRead env total B s).1 with
                        wb := s.wb + chunkLen s, pos := pos', n := n' }
                    ({ (afterRead env total B s).1 with
                        wb := s.wb + chunkLen s, pos := pos', n := n' } : St).procBuf = 0 := by
                  rw [getRs_update, procBuf_update, hpr, hcz]
                cases fuel with
                | zero =>
                  rw [mainLoop_zero] at hrec
                  exact absurd hrec (by simp)
                | succ f =>
                  rw [mainLoop_exit env total B f _ hrs0] at hrec
                  simp only [Option.some.injEq, Prod.mk.injEq] at hrec
                  obtain ⟨-, ho', -⟩ := hrec
                  rw [← ho'] at ho
                  simp at ho
              simp only [List.cons_append, writeOffsets_cons_progress, writeOffsets_append,
                hReadW, List.nil_append, List.count_append]
              have hc1 : (writeOffsets
                  (retryLoop env s.wb (chunkLen s) WRITE_RETRIES s.wb s.n).1).count w' = 0 := by
                rw [List.count_eq_zero]
                intro hmem
                have := hR1all w' hmem
                omega
              rw [hc1, IH6 ho]
              omega
        | cancelled =>
          rw [mainLoop_halt env total B fuel s _ _
            (loopStep_halt' env total B s hpos h0 h1' _ .cancelled hr (by simp))] at h
          simp only [Option.some.injEq, Prod.mk.injEq] at h
          obtain ⟨htr, ho, hw⟩ := h
          subst htr; subst ho; subst hw
          refine ⟨Nat.le_refl _, ?_, ?_, ?_, ?_, ?_⟩
          · intro off l hm
            simp only [List.cons_append, List.mem_cons, List.mem_append] at hm
            rcases hm with hm | hm | hm
            · exact absurd hm (by simp)
            · exact absurd hm (hReadMemW off l)
            · obtain ⟨ho1, hl1⟩ := hWmemAll hm
              refine ⟨Nat.le_of_eq ho1.symm, Nat.le_of_eq ho1, ?_⟩
              rw [hl1]
              exact hmodc
          · simp only [List.cons_append, writeOffsets_cons_progress, writeOffsets_append,
              hReadW, List.nil_append]
            exact chain'_le_of_all_eq _ s.wb hR1all
          · intro a b hm
            simp only [List.cons_append, List.mem_cons, List.mem_append] at hm
            rcases hm with hm | hm | hm
            · simp only [Event.progress.injEq] at hm
              exact ⟨hm.2, Nat.le_of_eq hm.1.symm⟩
            · exact absurd hm (hReadMemP a b)
            · have : a ∈ progressWrittens
                  (retryLoop env s.wb (chunkLen s) WRITE_RETRIES s.wb s.n).1 :=
                (mem_progressWrittens _ _).mpr ⟨b, hm⟩
              rw [hPnil] at this
              simp at this
          · simp only [List.cons_append, progressWrittens_cons_progress,
              progressWrittens_append, hReadP, hPnil, List.nil_append]
            simp
          · intro ho
            simp at ho
        | exhausted =>
          rw [mainLoop_halt env total B fuel s _ _
            (loopStep_halt' env total B s hpos h0 h1' _ (.failed .writeExhausted) hr
              (by simp))] at h
          simp only [Option.some.injEq, Prod.mk.injEq] at h
          obtain ⟨htr, ho, hw⟩ := h
          subst htr; subst ho; subst hw
          refine ⟨Nat.le_refl _, ?_, ?_, ?_, ?_, ?_⟩
          · intro off l hm
            simp only [List.cons_append, List.mem_cons, List.mem_append] at hm
            rcases hm with hm | hm | hm
            · exact absurd hm (by simp)
            · exact absurd hm (hReadMemW off l)
            · obtain ⟨ho1, hl1⟩ := hWmemAll hm
              refine ⟨Nat.le_of_eq ho1.symm, Nat.le_of_eq ho1, ?_⟩
              rw [hl1]
              exact hmodc
          · simp only [List.cons_append, writeOffsets_cons_progress, writeOffsets_append,
              hReadW, List.nil_append]
            exact chain'_le_of_all_eq _ s.wb hR1all
          · intro a b hm
            simp only [List.cons_append, List.mem_cons, List.mem_append] at hm
            rcases hm with hm | hm | hm
            · simp only [Event.progress.injEq] at hm
              exact ⟨hm.2, Nat.le_of_eq hm.1.symm⟩
            · exact absurd hm (hReadMemP a b)
            · have : a ∈ progressWrittens
                  (retryLoop env s.wb (chunkLen s) WRITE_RETRIES s.wb s.n).1 :=
                (mem_progressWrittens _ _).mpr ⟨b, hm⟩
              rw [hPnil] at this
              simp at this
          · simp only [List.cons_append, progressWrittens_cons_progress,
              progressWrittens_append, hReadP, hPnil, List.nil_append]
            simp
          · intro _
            simp only [List.cons_append, writeOffsets_cons_progress, writeOffsets_append,
              hReadW, List.nil_append]
            rw [retryLoop_exhausted_offsets env s.wb (chunkLen s) WRITE_RETRIES s.n hr]
            exact List.count_replicate_self _ _
        | seekFailed =>
          rw [mainLoop_halt env total B fuel s _ _
            (loopStep_halt' env total B s hpos h0 h1' _ (.failed .seekError) hr
              (by simp))] at h
          simp only [Option.some.injEq, Prod.mk.injEq] at h
          obtain ⟨htr, ho, hw⟩ := h
          subst htr; subst ho; subst hw
          refine ⟨Nat.le_refl _, ?_, ?_, ?_, ?_, ?_⟩
          · intro off l hm
            simp only [List.cons_append, List.mem_cons, List.mem_append] at hm
            rcases hm with hm | hm | hm
            · exact absurd hm (by simp)
            · exact absurd hm (hReadMemW off l)
            · obtain ⟨ho1, hl1⟩ := hWmemAll hm
              refine ⟨Nat.le_of_eq ho1.symm, Nat.le_of_eq ho1, ?_⟩
              rw [hl1]
              exact hmodc
          · simp only [List.cons_append, writeOffsets_cons_progress, writeOffsets_append,
              hReadW, List.nil_append]
            exact chain'_le_of_all_eq _ s.wb hR1all
          · intro a b hm
            simp only [List.cons_append, List.mem_cons, List.mem_append] at hm
            rcases hm with hm | hm | hm
            · simp only [Event.progress.injEq] at hm
              exact ⟨hm.2, Nat.le_of_eq hm.1.symm⟩
            · exact absurd hm (hReadMemP a b)
            · have : a ∈ progressWrittens
                  (retryLoop env s.wb (chunkLen s) WRITE_RETRIES s.wb s.n).1 :=
                (mem_progressWrittens _ _).mpr ⟨b, hm⟩
              rw [hPnil] at this
              simp at this
          · simp only [List.cons_append, progressWrittens_cons_progress,
              progressWrittens_append, hReadP, hPnil, List.nil_append]
            simp
          · intro ho
            simp at ho

theorem readBuf_update (x : St) (a p m : Nat) :
    ({ x with wb := a, pos := p, n := m } : St).readBuf = x.readBuf := rfl

theorem afterRead_read_yes (env : Env) (total B : Nat) (s : St)
    (h : s.wb + chunkLen s < total) :
    getRs (afterRead env total B s).1 (afterRead env total B s).1.readBuf =
      freadModel env total s.readPos s.rIdx (min B (total - (s.wb + chunkLen s))) ∧
    (afterRead env total B s).1.readPos =
      s.readPos + freadModel env total s.readPos s.rIdx (min B (total - (s.wb + chunkLen s))) := by
  simp only [afterRead]
  rw [if_pos h]
  cases hb : s.readBuf <;> simp [getRs, setRs, hb]

theorem afterRead_read_no (env : Env) (total B : Nat) (s : St)
    (h : ¬s.wb + chunkLen s < total) :
    getRs (afterRead env total B s).1 (afterRead env total B s).1.readBuf = 0 ∧
    (afterRead env total B s).1.readPos = s.readPos := by
  simp only [afterRead]
  rw [if_neg h]
  cases hb : s.readBuf <;> simp [getRs, setRs, hb]

/-- A fault-free run of the main loop from an invariant state terminates in
`done` with exactly `roundUp512 total` bytes accounted: the sum of the
per-iteration `wb` increments is the image size rounded up to the next
sector multiple, because the final short chunk is rounded before being added
to `wb`. -/
theorem mainLoop_ideal (total B : Nat) (hB : 0 < B) (hBm : B % 512 = 0) :
    ∀ (fuel : Nat), ∀ (s : St), IdealInv total B s →
      (total - s.wb) / 512 + 2 ≤ fuel →
      ∃ tr, mainLoop (idealEnv B) total B fuel s = some (tr, .done, roundUp512 total) := by
  intro fuel
  induction fuel with
  | zero =>
    intro s _ hf
    omega
  | succ fuel ih =>
    intro s hinv hf
    obtain ⟨hwlt, hwm, hpos, hrd, hrp, hproc⟩ := hinv
    have hB512 : 512 ≤ B := by omega
    have hrle : getRs s s.readBuf ≤ B := by
      rw [hrd]
      exact Nat.min_le_left _ _
    have hcle : chunkLen s ≤ B := by
      unfold chunkLen
      exact alignSize_le _ _ hrle hBm
    have hcmod : chunkLen s % 512 = 0 := by
      unfold chunkLen
      exact alignSize_mod _
    have hcge : getRs s s.readBuf ≤ chunkLen s := by
      unfold chunkLen
      exact alignSize_ge _
    have hrpos : 0 < getRs s s.readBuf := by
      rw [hrd]
      omega
    have hmin : min ((idealEnv B).writeO (s.n + 0)) (chunkLen s) = chunkLen s := by
      simpa [idealEnv] using Nat.min_eq_right hcle
    have hretry := retryLoop_char (idealEnv B) s.wb (chunkLen s) 0 WRITE_RETRIES s.n
      (by norm_num [WRITE_RETRIES])
      (fun j hj => absurd hj (Nat.not_lt_zero j))
      (fun j _ => rfl)
      (fun j hj => absurd hj (Nat.not_lt_zero j))
      hmin
    have hr2 : (retryLoop (idealEnv B) s.wb (chunkLen s) WRITE_RETRIES s.wb s.n).2 =
        .written (s.wb + chunkLen s) (s.n + 1) := by
      rw [hretry]
    have hstep := loopStep_next' (idealEnv B) total B s (s.wb + chunkLen s) (s.n + 1)
      hpos hproc hwlt hr2
    simp only [mainLoop_next (idealEnv B) total B fuel s _ _ hstep]
    have hprocRs : getRs
        { (afterRead (idealEnv B) total B s).1 with
            wb := s.wb + chunkLen s, pos := s.wb + chunkLen s, n := s.n + 1 }
        ({ (afterRead (idealEnv B) total B s).1 with
            wb := s.wb + chunkLen s, pos := s.wb + chunkLen s, n := s.n + 1 } : St).procBuf =
        chunkLen s := by
      rw [getRs_update, procBuf_update]
      exact afterRead_procRs (idealEnv B) total B s
    by_cases hlast : s.wb + chunkLen s < total
    · -- a full-buffer chunk was written and more data follows
      have hgtB : B < total - s.wb := by
        by_contra hle2
        have h1 : getRs s s.readBuf = total - s.wb := by
          rw [hrd]
          omega
        omega
      have hrB : getRs s s.readBuf = B := by
        rw [hrd]
        omega
      have hcB : chunkLen s = B := by
        unfold chunkLen
        rw [hrB, alignSize_eq, roundUp512_of_mod B hBm]
      have hreads := afterRead_read_yes (idealEnv B) total B s hlast
      have hinv' : IdealInv total B
          { (afterRead (idealEnv B) total B s).1 with
              wb := s.wb + chunkLen s, pos := s.wb + chunkLen s, n := s.n + 1 } := by
        have hXwb : ({ (afterRead (idealEnv B) total B s).1 with
            wb := s.wb + chunkLen s, pos := s.wb + chunkLen s, n := s.n + 1 } : St).wb =
            s.wb + chunkLen s := rfl
        have hXrp : ({ (afterRead (idealEnv B) total B s).1 with
            wb := s.wb + chunkLen s, pos := s.wb + chunkLen s, n := s.n + 1 } : St).readPos =
            (afterRead (idealEnv B) total B s).1.readPos := rfl
        refine ⟨?_, ?_, rfl, ?_, ?_, ?_⟩
        · rw [hXwb]
          exact hlast
        · rw [hXwb]
          omega
        · rw [hXwb, getRs_update, readBuf_update, hreads.1]
          simp only [freadModel, idealEnv]
          rw [hrp, hrB, hcB]
          omega
        · rw [hXrp, hXwb, getRs_update, readBuf_update, hreads.1, hreads.2, hrp, hrB, hcB]
        · rw [hprocRs]
          omega
      have hbound : (total -
          ({ (afterRead (idealEnv B) total B s).1 with
              wb := s.wb + chunkLen s, pos := s.wb + chunkLen s, n := s.n + 1 } : St).wb) /
            512 + 2 ≤ fuel := by
        show (total - (s.wb + chunkLen s)) / 512 + 2 ≤ fuel
        rw [hcB]
        omega
      obtain ⟨tr', htr'⟩ := ih _ hinv' hbound
      rw [htr']
      exact ⟨_, rfl⟩
    · -- the final (possibly short) chunk was written: the next iteration breaks
      have hge : total ≤
          ({ (afterRead (idealEnv B) total B s).1 with
              wb := s.wb + chunkLen s, pos := s.wb + chunkLen s, n := s.n + 1 } : St).wb := by
        show total ≤ s.wb + chunkLen s
        omega
      have hproc' : ¬getRs
          { (afterRead (idealEnv B) total B s).1 with
              wb := s.wb + chunkLen s, pos := s.wb + chunkLen s, n := s.n + 1 }
          ({ (afterRead (idealEnv B) total B s).1 with
              wb := s.wb + chunkLen s, pos := s.wb + chunkLen s, n := s.n + 1 } : St).procBuf =
          0 := by
        rw [hprocRs]
        omega
      have hfinal : s.wb + chunkLen s = roundUp512 total := by
        have htot : total - s.wb ≤ B := by
          by_contra hgt
          have hrB : getRs s s.readBuf = B := by
            rw [hrd]
            omega
          have hcB : chunkLen s = B := by
            unfold chunkLen
            rw [hrB, alignSize_eq, roundUp512_of_mod B hBm]
          omega
        have hrT : getRs s s.readBuf = total - s.wb := by
          rw [hrd]
          omega
        have hcT : chunkLen s = roundUp512 (total - s.wb) := by
          unfold chunkLen
          rw [hrT, alignSize_eq]
        rw [hcT, ← roundUp512_add_left s.wb (total - s.wb) hwm,
          Nat.add_sub_cancel' (Nat.le_of_lt hwlt)]
      cases fuel with
      | zero => omega
      | succ f =>
        rw [mainLoop_break (idealEnv B) total B f _ hproc' hge]
        have hXwb2 : ({ (afterRead (idealEnv B) total B s).1 with
            wb := s.wb + chunkLen s, pos := s.wb + chunkLen s, n := s.n + 1 } : St).wb =
            roundUp512 total := by
          rw [show ({ (afterRead (idealEnv B) total B s).1 with
              wb := s.wb + chunkLen s, pos := s.wb + chunkLen s, n := s.n + 1 } : St).wb =
              s.wb + chunkLen s from rfl]
          exact hfinal
        rw [hXwb2]
        exact ⟨_, rfl⟩

/-- A fault-free run of the whole operation on a nonzero image ends `done`
with `roundUp512 total` bytes accounted in `wb`. -/
theorem macosWrite_ideal (total B fuel : Nat) (hT : 0 < total) (hB : 0 < B)
    (hBm : B % 512 = 0) (hfuel : total / 512 + 2 ≤ fuel) :
    ∃ tr, macosWrite (idealEnv B) total B fuel = some (tr, .done, roundUp512 total) := by
  have hinv : IdealInv total B (initSt (idealEnv B) total B) := by
    refine ⟨hT, rfl, rfl, ?_, ?_, ?_⟩
    · show freadModel (idealEnv B) total 0 0 (min B total) = min B (total - 0)
      simp only [freadModel, idealEnv]
      omega
    · show freadModel (idealEnv B) total 0 0 (min B total) =
        0 + freadModel (idealEnv B) total 0 0 (min B total)
      omega
    · show (1 : Nat) ≠ 0
      omega
  obtain ⟨tr, htr⟩ := mainLoop_ideal total B hB hBm fuel (initSt (idealEnv B) total B) hinv
    (by
      show (total - 0) / 512 + 2 ≤ fuel
      omega)
  unfold macosWrite
  rw [if_neg (show ¬total = 0 by omega), htr]
  exact ⟨_, rfl⟩

/-- Top-level form of the run invariant, for the whole operation. -/
theorem macosWrite_spec (env : Env) (total B fuel : Nat) (tr : List Event) (o : Outcome)
    (w : Nat) (h : macosWrite env total B fuel = some (tr, o, w)) :
    (∀ off l, Event.writeAttempt off l ∈ tr → off ≤ w ∧ l % 512 = 0) ∧
    (writeOffsets tr).Chain' (· ≤ ·) ∧
    (∀ a b, Event.progress a b ∈ tr → b = total) ∧
    (progressWrittens tr).Chain' (· ≤ ·) ∧
    (o = .failed .writeExhausted → (writeOffsets tr).count w = WRITE_RETRIES) := by
  unfold macosWrite at h
  by_cases hT : total = 0
  · rw [if_pos hT] at h
    simp only [Option.some.injEq, Prod.mk.injEq] at h
    obtain ⟨htr, ho, hw⟩ := h
    subst htr; subst ho; subst hw
    refine ⟨?_, ?_, ?_, ?_, ?_⟩
    · intro off l hm
      simp at hm
    · simp
    · intro a b hm
      simp at hm
    · simp
    · intro ho'
      simp at ho'
  · rw [if_neg hT] at h
    cases hrec : mainLoop env total B fuel (initSt env total B) with
    | none =>
      rw [hrec] at h
      simp at h
    | some x =>
      obtain ⟨tr₀, o₀, w₀⟩ := x
      rw [hrec] at h
      simp only [Option.some.injEq, Prod.mk.injEq] at h
      obtain ⟨htr, ho, hw⟩ := h
      subst htr; subst ho; subst hw
      obtain ⟨S1, S2, S3, S4, S5, S6⟩ :=
        mainLoop_spec env total B fuel (initSt env total B) tr₀ o₀ w₀ rfl hrec
      refine ⟨?_, ?_, ?_, ?_, ?_⟩
      · intro off l hm
        simp only [List.mem_cons] at hm
        rcases hm with hm | hm | hm
        · exact absurd hm (by simp)
        · exact absurd hm (by simp)
        · exact ⟨(S2 off l hm).2.1, (S2 off l hm).2.2⟩
      · simp only [writeOffsets_cons_readSrc, writeOffsets_cons_progress]
        exact S3
      · intro a b hm
        simp only [List.mem_cons] at hm
        rcases hm with hm | hm | hm
        · exact absurd hm (by simp)
        · simp only [Event.progress.injEq] at hm
          exact hm.2
        · exact (S4 a b hm).1
      · simp only [progressWrittens_cons_readSrc, progressWrittens_cons_progress]
        rw [List.chain'_cons']
        exact ⟨fun y _ => Nat.zero_le y, S5⟩
      · intro ho'
        simp only [writeOffsets_cons_readSrc, writeOffsets_cons_progress]
        exact S6 ho'

/-- When the cancel flag is never raised, the main loop cannot end
`cancelled`. -/
theorem mainLoop_no_cancel (env : Env) (hnc : ∀ m, env.cancel m = false) (total B : Nat) :
    ∀ (fuel : Nat), ∀ (s : St), ∀ (tr : List Event) (o : Outcome) (w : Nat),
      mainLoop env total B fuel s = some (tr, o, w) → o ≠ .cancelled := by
  intro fuel
  induction fuel with
  | zero =>
    intro s tr o w h
    rw [mainLoop_zero] at h
    exact absurd h (by simp)
  | succ fuel ih =>
    intro s tr o w h
    by_cases h0 : getRs s s.procBuf = 0
    · rw [mainLoop_exit env total B fuel s h0] at h
      simp only [Option.some.injEq, Prod.mk.injEq] at h
      obtain ⟨-, ho, -⟩ := h
      rw [← ho]
      simp
    · by_cases h1 : total ≤ s.wb
      · rw [mainLoop_break env total B fuel s h0 h1] at h
        simp only [Option.some.injEq, Prod.mk.injEq] at h
        obtain ⟨-, ho, -⟩ := h
        rw [← ho]
        simp
      · have h1' : s.wb < total := by omega
        cases hr : (retryLoop env (afterRead env total B s).1.wb (chunkLen s) WRITE_RETRIES
            (afterRead env total B s).1.pos (afterRead env total B s).1.n).2 with
        | written pos' n' =>
          rw [mainLoop_next env total B fuel s _ _
            (loopStep_next env total B s pos' n' h0 h1' hr)] at h
          cases hrec : mainLoop env total B fuel
              { (afterRead env total B s).1 with
                  wb := (afterRead env total B s).1.wb + chunkLen s,
                  pos := pos', n := n' } with
          | none =>
            rw [hrec] at h
            simp at h
          | some x =>
            obtain ⟨tr', o', w'⟩ := x
            rw [hrec] at h
            simp only [Option.some.injEq, Prod.mk.injEq] at h
            obtain ⟨-, ho, -⟩ := h
            rw [← ho]
            exact ih _ _ _ _ hrec
        | cancelled =>
          exact absurd hr (retryLoop_not_cancelled env _ (chunkLen s) hnc WRITE_RETRIES _ _)
        | exhausted =>
          rw [mainLoop_halt env total B fuel s _ _
            (loopStep_halt env total B s h0 h1' _ (.failed .writeExhausted) hr (by simp))] at h
          simp only [Option.some.injEq, Prod.mk.injEq] at h
          obtain ⟨-, ho, -⟩ := h
          rw [← ho]
          simp
        | seekFailed =>
          rw [mainLoop_halt env total B fuel s _ _
            (loopStep_halt env total B s h0 h1' _ (.failed .seekError) hr (by simp))] at h
          simp only [Option.some.injEq, Prod.mk.injEq] at h
          obtain ⟨-, ho, -⟩ := h
          rw [← ho]
          simp

/-- When the cancel flag is never raised, the whole operation cannot end
`cancelled`. -/
theorem macosWrite_no_cancel (env : Env) (hnc : ∀ m, env.cancel m = false)
    (total B fuel : Nat) (tr : List Event) (o : Outcome) (w : Nat)
    (h : macosWrite env total B fuel = some (tr, o, w)) : o ≠ .cancelled := by
  unfold macosWrite at h
  by_cases hT : total = 0
  · rw [if_pos hT] at h
    simp only [Option.some.injEq, Prod.mk.injEq] at h
    obtain ⟨-, ho, -⟩ := h
    rw [← ho]
    simp
  · rw [if_neg hT] at h
    cases hrec : mainLoop env total B fuel (initSt env total B) with
    | none =>
      rw [hrec] at h
      simp at h
    | some x =>
      obtain ⟨tr₀, o₀, w₀⟩ := x
      rw [hrec] at h
      simp only [Option.some.injEq, Prod.mk.injEq] at h
      obtain ⟨-, ho, -⟩ := h
      rw [← ho]
      exact mainLoop_no_cancel env hnc total B fuel _ _ _ _ hrec

theorem percentOf_mono (T : Nat) {a b : Nat} (h : a ≤ b) :
    percentOf a T ≤ percentOf b T := by
  unfold percentOf
  split
  · have hT' : (0 : ℚ) < (T : ℚ) := by
      rename 0 < T => hT
      exact_mod_cast hT
    have hab : (a : ℚ) ≤ (b : ℚ) := by exact_mod_cast h
    exact mul_le_mul_of_nonneg_right ((div_le_div_right hT').mpr hab) (by norm_num)
  · exact le_refl 0

theorem percentOf_nonneg (a T : Nat) : 0 ≤ percentOf a T := by
  unfold percentOf
  split
  · positivity
  · exact le_refl 0

/-! Claim theorems. -/

/-- C1: in every run of the image-write operation, every length passed to a
device write attempt (fwrite on the physical drive) is a multiple of 512,
and the sequence of device write offsets is monotonically non-decreasing
over the run. -/
theorem c1_device_writes_sector_multiple_and_cursor_monotone
    (env : Env) (total B fuel : Nat) (tr : List Event) (o : Outcome) (w : Nat)
    (h : macosWrite env total B fuel = some (tr, o, w)) :
    (∀ off l, Event.writeAttempt off l ∈ tr → l % 512 = 0) ∧
    (writeOffsets tr).Chain' (· ≤ ·) := by
  obtain ⟨S1, S2, -, -, -⟩ := macosWrite_spec env total B fuel tr o w h
  exact ⟨fun off l hm => (S1 off l hm).2, S2⟩

theorem c1_witness :
    ∃ tr o w, macosWrite (idealEnv 512) 1024 512 5 = some (tr, o, w) ∧
      ((∀ off l, Event.writeAttempt off l ∈ tr → l % 512 = 0) ∧
        (writeOffsets tr).Chain' (· ≤ ·)) :=
  ⟨_, _, _, rfl,
    c1_device_writes_sector_multiple_and_cursor_monotone (idealEnv 512) 1024 512 5 _ _ _ rfl⟩

/-- C2 counterexample: a fault-free run on a 1000-byte image completes
(`done`) with a single per-iteration increment of 1024 — the rounded chunk
length, not the 1000 bytes actually read — so the accumulated
`written_bytes` is 1024 ≠ 1000 at completion, refuting the claim as
stated. -/
theorem c2_counterexample :
    runSummary (macosWrite (idealEnv 512) 1000 512 5) = some (.done, 1024, 2) ∧
    (1024 : Nat) ≠ 1000 := ⟨by decide, by decide⟩

/-- C2 amended: each iteration advances `wb` by the chunk's rounded
(post-rounding) length, so a fault-free run on a nonzero image completes
`done` with exactly `roundUp512 total` bytes accounted — equal to the image
size precisely when the size is a multiple of 512. -/
theorem c2_amended_sum_is_rounded_total (total B fuel : Nat) (hT : 0 < total)
    (hB : 0 < B) (hBm : B % 512 = 0) (hfuel : total / 512 + 2 ≤ fuel) :
    ∃ tr, macosWrite (idealEnv B) total B fuel = some (tr, .done, roundUp512 total) :=
  macosWrite_ideal total B fuel hT hB hBm hfuel

theorem c2_witness :
    0 < 1000 ∧ 0 < 512 ∧ 512 % 512 = 0 ∧ 1000 / 512 + 2 ≤ 3 ∧
    ∃ tr, macosWrite (idealEnv 512) 1000 512 3 = some (tr, .done, roundUp512 1000) :=
  ⟨by decide, by decide, by decide, by decide,
    c2_amended_sum_is_rounded_total 1000 512 3 (by decide) (by decide) (by decide) (by decide)⟩

/-- C3 counterexample: the run on a 1000-byte image emits a progress record
with `written_bytes = 1024` and `total = 1000`, whose percentage
1024/1000·100 exceeds 100 — `rufus_update_progress` performs no clamping,
refuting the claim as stated. -/
theorem c3_counterexample :
    Event.progress 1024 1000 ∈ traceEvents (macosWrite (idealEnv 512) 1000 512 5) ∧
    100 < percentOf 1024 1000 := by
  constructor
  · decide
  · norm_num [percentOf]

/-- C3 amended: every emitted percentage equals `written/total·100` with no
clamping (never negative, but it can exceed 100 on the final emission when
the image size is not a sector multiple), every emission carries the image
size as its total, and the emitted percentages are monotonically
non-decreasing over the run. -/
theorem c3_amended_percentages (env : Env) (total B fuel : Nat) (tr : List Event)
    (o : Outcome) (w : Nat) (h : macosWrite env total B fuel = some (tr, o, w)) :
    (∀ a b, Event.progress a b ∈ tr → b = total) ∧
    ((progressWrittens tr).map fun a => percentOf a total).Chain' (· ≤ ·) ∧
    (∀ a b, Event.progress a b ∈ tr → 0 ≤ percentOf a b) := by
  obtain ⟨-, -, S3, S4, -⟩ := macosWrite_spec env total B fuel tr o w h
  refine ⟨S3, ?_, fun a b _ => percentOf_nonneg a b⟩
  rw [List.chain'_map]
  exact S4.imp fun a b hab => percentOf_mono total hab

theorem c3_witness :
    ∃ tr o w, macosWrite (idealEnv 512) 1000 512 5 = some (tr, o, w) ∧
      ((∀ a b, Event.progress a b ∈ tr → b = 1000) ∧
        ((progressWrittens tr).map fun a => percentOf a 1000).Chain' (· ≤ ·) ∧
        (∀ a b, Event.progress a b ∈ tr → 0 ≤ percentOf a b)) :=
  ⟨_, _, _, rfl, c3_amended_percentages (idealEnv 512) 1000 512 5 _ _ _ rfl⟩

/-- C4 counterexample: in this fault-free run two write attempts occur and
succeed, and no 200 ms pause is ever taken — the `usleep(200000)` is only
reached after a failed attempt that will be retried, so "after every
attempt, whether it succeeds or fails, it additionally pauses 200 ms" is
false on the code. -/
theorem c4_counterexample :
    countWrites (traceEvents (macosWrite (idealEnv 512) 1024 512 5)) = 2 ∧
    Event.sleepMs 200 ∉ traceEvents (macosWrite (idealEnv 512) 1024 512 5) := by
  constructor
  · decide
  · decide

/-- C4 amended: each chunk makes at most `WRITE_RETRIES = 5` attempts; each
failed attempt with attempts remaining is followed by the 5000 ms backoff
sleep, the re-seek to the chunk offset, and a 200 ms pause before the next
attempt; the succeeding attempt is followed only by flush+fsync, with no
pause, and the chunk ends `written` after `k` failures and one success. -/
theorem c4_amended_retry_schedule (env : Env) (wb len k n : Nat)
    (hk : k < WRITE_RETRIES)
    (hfail : ∀ j, j < k → min (env.writeO (n + j)) len < len)
    (hcanc : ∀ j, j ≤ k → env.cancel (n + j) = false)
    (hseek : ∀ j, j < k → env.seekO (n + j) = true)
    (hsucc : min (env.writeO (n + k)) len = len) :
    retryLoop env wb len WRITE_RETRIES wb n =
      (repEvs k (retryFailEvs wb len) ++ [.writeAttempt wb len, .flushSync],
       .written (wb + len) (n + k + 1)) :=
  retryLoop_char env wb len k WRITE_RETRIES n hk hfail hcanc hseek hsucc

theorem c4_witness :
    2 < WRITE_RETRIES ∧
    (∀ j, j < 2 → min ((flakyWriteEnv 512 2).writeO (0 + j)) 512 < 512) ∧
    (∀ j, j ≤ 2 → (flakyWriteEnv 512 2).cancel (0 + j) = false) ∧
    (∀ j, j < 2 → (flakyWriteEnv 512 2).seekO (0 + j) = true) ∧
    min ((flakyWriteEnv 512 2).writeO (0 + 2)) 512 = 512 ∧
    retryLoop (flakyWriteEnv 512 2) 0 512 WRITE_RETRIES 0 0 =
      (repEvs 2 (retryFailEvs 0 512) ++ [.writeAttempt 0 512, .flushSync],
       .written (0 + 512) (0 + 2 + 1)) :=
  ⟨by decide,
    (by intro j hj; interval_cases j <;> decide),
    (by intro j hj; interval_cases j <;> decide),
    (by intro j hj; interval_cases j <;> decide),
    by decide,
    c4_amended_retry_schedule (flakyWriteEnv 512 2) 0 512 2 0 (by decide)
      (by intro j hj; interval_cases j <;> decide)
      (by intro j hj; interval_cases j <;> decide)
      (by intro j hj; interval_cases j <;> decide)
      (by decide)⟩

/-- C5: every write attempt of a chunk's retry loop is issued at the chunk
offset `wb` with the chunk length, every recovery seek re-establishes `wb`,
and the loop reports `written` only with the device position at exactly
`wb + len` — the cursor never moves past a chunk before one attempt writes
its full length. -/
theorem c5_retries_same_offset (env : Env) (wb len k n : Nat) (tr : List Event)
    (res : RetryResult) (h : retryLoop env wb len k wb n = (tr, res)) :
    (∀ o l, Event.writeAttempt o l ∈ tr → o = wb ∧ l = len) ∧
    (∀ o, Event.seek o ∈ tr → o = wb) ∧
    (∀ pos' n', res = .written pos' n' → pos' = wb + len) := by
  have h1 : (retryLoop env wb len k wb n).1 = tr := by rw [h]
  have h2 : (retryLoop env wb len k wb n).2 = res := by rw [h]
  refine ⟨?_, ?_, ?_⟩
  · intro o l hm
    refine retryLoop_write_mem env wb len k n ?_
    rw [h1]
    exact hm
  · intro o hm
    refine retryLoop_seek_mem env wb len k wb n ?_
    rw [h1]
    exact hm
  · intro pos' n' hres
    refine @retryLoop_written_pos env wb len k n pos' n' ?_
    rw [h2]
    exact hres

theorem c5_witness :
    (∀ o l, Event.writeAttempt o l ∈
        (retryLoop (flakyWriteEnv 512 1) 0 512 WRITE_RETRIES 0 0).1 → o = 0 ∧ l = 512) ∧
    (∀ o, Event.seek o ∈ (retryLoop (flakyWriteEnv 512 1) 0 512 WRITE_RETRIES 0 0).1 →
      o = 0) ∧
    (∀ pos' n', (retryLoop (flakyWriteEnv 512 1) 0 512 WRITE_RETRIES 0 0).2 =
        .written pos' n' → pos' = 0 + 512) :=
  c5_retries_same_offset (flakyWriteEnv 512 1) 0 512 WRITE_RETRIES 0 _ _ rfl

/-- C6: if the cancel flag is observed up when an iteration reaches its
retry loop, the run makes no device write attempt at that iteration's
offset or beyond (none at all from that point), terminates `cancelled`, and
leaves the cursor at the iteration's offset. -/
theorem c6_cancel_stops_run (env : Env) (total B fuel : Nat) (s : St)
    (tr : List Event) (o : Outcome) (w : Nat)
    (hpos : s.pos = s.wb) (hcan : env.cancel s.n = true)
    (hcond : ¬getRs s s.procBuf = 0) (hlt : s.wb < total)
    (h : mainLoop env total B fuel s = some (tr, o, w)) :
    o = .cancelled ∧ w = s.wb ∧ ∀ off l, Event.writeAttempt off l ∉ tr := by
  cases fuel with
  | zero =>
    rw [mainLoop_zero] at h
    exact absurd h (by simp)
  | succ fuel =>
    have hr : (retryLoop env s.wb (chunkLen s) WRITE_RETRIES s.wb s.n).2 = .cancelled := by
      rw [show WRITE_RETRIES = 4 + 1 from rfl,
        retryLoop_cancel_true env s.wb (chunkLen s) 4 s.wb s.n hcan]
    have hr1 : (retryLoop env s.wb (chunkLen s) WRITE_RETRIES s.wb s.n).1 = [] := by
      rw [show WRITE_RETRIES = 4 + 1 from rfl,
        retryLoop_cancel_true env s.wb (chunkLen s) 4 s.wb s.n hcan]
    have hstep := loopStep_halt' env total B s hpos hcond hlt _ .cancelled hr (by simp)
    rw [mainLoop_halt env total B fuel s _ _ hstep, hr1] at h
    simp only [Option.some.injEq, Prod.mk.injEq] at h
    obtain ⟨htr, ho, hw⟩ := h
    refine ⟨ho.symm, hw.symm, ?_⟩
    intro off l hm
    rw [← htr] at hm
    simp only [List.append_nil, List.mem_cons] at hm
    rcases hm with hm | hm
    · exact absurd hm (by simp)
    · rcases afterRead_evs env total B s with he | ⟨ra, rb, he⟩ <;> rw [he] at hm <;>
        simp at hm

theorem c6_witness :
    ∃ tr o w, mainLoop (cancelAlwaysEnv 512) 1024 512 5
        (initSt (cancelAlwaysEnv 512) 1024 512) = some (tr, o, w) ∧
      (o = .cancelled ∧ w = (initSt (cancelAlwaysEnv 512) 1024 512).wb ∧
        ∀ off l, Event.writeAttempt off l ∉ tr) :=
  ⟨_, _, _, rfl, c6_cancel_stops_run (cancelAlwaysEnv 512) 1024 512 5 _ _ _ _ rfl rfl
    (by decide) (by decide) rfl⟩

/-- C7: a run that ends `Failed{writeExhausted}` made no write attempt at
any offset beyond its final cursor, and made exactly `WRITE_RETRIES = 5`
attempts at that cursor — the offset of the chunk that failed on all
attempts. -/
theorem c7_exhaustion_fails_run (env : Env) (total B fuel : Nat) (tr : List Event)
    (w : Nat) (h : macosWrite env total B fuel = some (tr, .failed .writeExhausted, w)) :
    (∀ off l, Event.writeAttempt off l ∈ tr → off ≤ w) ∧
    (writeOffsets tr).count w = WRITE_RETRIES := by
  obtain ⟨S1, -, -, -, S5⟩ := macosWrite_spec env total B fuel tr _ w h
  exact ⟨fun off l hm => (S1 off l hm).1, S5 rfl⟩

theorem c7_witness :
    ∃ tr, macosWrite (failWriteEnv 512) 1000 512 5 =
        some (tr, .failed .writeExhausted, 0) ∧
      ((∀ off l, Event.writeAttempt off l ∈ tr → off ≤ 0) ∧
        (writeOffsets tr).count 0 = WRITE_RETRIES) :=
  ⟨_, rfl, c7_exhaustion_fails_run (failWriteEnv 512) 1000 512 5 _ 0 rfl⟩

/-- C8 (bug evidence): on a 20 MiB image whose every source read fails
(fread reports 0 bytes), the function silently treats the failed reads as
end of data — it performs one zero-length "successful" device write, prints
the success message, and returns `true` (`done`) with 0 of 20971520 bytes
written.  The code never checks `ferror`, so no source-read error can
propagate. -/
theorem c8_read_failure_reported_success :
    runSummary (macosWrite (failReadEnv bufSize) 20971520 bufSize 5) =
      some (.done, 0, 1) := by decide

/-- C9: Scenario A — 8 MiB buffer, 512-byte sectors, 20 MiB source image,
no failures: the run makes exactly 3 device write attempts, `written_bytes`
reaches exactly 20971520, and the operation completes `done`. -/
theorem c9_scenario_a :
    runSummary (macosWrite (idealEnv bufSize) 20971520 bufSize 8) =
      some (.done, 20971520, 3) := by decide

/-- C10: `macos_write_iso_to_device` clears the whole progress record —
including the cancel flag — with `memset` at the start of every run, and no
statement anywhere in the repository ever sets `g_rufus_progress.cancelled`
to true (verified over all sources: the only occurrences are the struct
field, the `CHECK_FOR_USER_CANCEL` read, and the `memset`).  Hence every
run of the program has a constantly-false cancel oracle, and no such run
can terminate `cancelled`: the cancellation branch is unreachable. -/
theorem c10_cancel_flag_never_set (env : Env) (hnc : ∀ m, env.cancel m = false)
    (total B fuel : Nat) (tr : List Event) (o : Outcome) (w : Nat)
    (h : macosWrite env total B fuel = some (tr, o, w)) : o ≠ .cancelled :=
  macosWrite_no_cancel env hnc total B fuel tr o w h

theorem c10_witness :
    (∀ m, (idealEnv 512).cancel m = false) ∧
    ∃ tr o w, macosWrite (idealEnv 512) 2048 512 6 = some (tr, o, w) ∧ o ≠ .cancelled :=
  ⟨fun _ => rfl,
    _, _, _, rfl, c10_cancel_flag_never_set (idealEnv 512) (fun _ => rfl) 2048 512 6 _ _ _ rfl⟩

end Remus
